import Mathlib

/-!
Verification of the dependency-graph visualizer (stage 3).

The program builds the transitive dependency graph of a package by a
depth-bounded depth-first search with cycle detection and memoization
(`DependencyGraph.dfs` / `DependencyGraph.build` in `3stage.py`), reading
its dependency information either from a line-oriented fixture file
(`load_test_repo`) or from the crates.io registry
(`get_dependencies_from_crates_io`).

Embedding conventions:
- Python `dict` becomes an insertion-ordered association list; `set`
  becomes a duplicate-free list (`setAdd` adds only if absent).
- Python operations that can raise (`list.index`, `dict.__getitem__`)
  return `Option`; a `none` result models the exception propagating out
  of the traversal.
- The field `resolveLog` is ghost instrumentation: it records the
  sequence of packages passed to `get_deps`, so that claims about how
  often the resolver is invoked can be stated.  No other field depends
  on it.
-/

namespace DepViz

/-- Python `set.add` on an insertion-ordered duplicate-free list. -/
def setAdd (s : List String) (x : String) : List String :=
  if x ∈ s then s else s ++ [x]

/-- Python `dict` lookup on an association list (`d[k]` / `k in d`). -/
def lookupGraph : List (String × List String) → String → Option (List String)
  | [], _ => none
  | (k, v) :: rest, q => if k = q then some v else lookupGraph rest q

/-- Python `dict` assignment `d[k] = v`: overwrite in place, else append. -/
def dictInsert : List (String × List String) → String → List String →
    List (String × List String)
  | [], k, v => [(k, v)]
  | (k', v') :: rest, k, v =>
    if k' = k then (k, v) :: rest else (k', v') :: dictInsert rest k v

/-- Python `self.graph[package].add(dep)`: `none` models the `KeyError`
when `package` is not a key. -/
def graphAddEdge : List (String × List String) → String → String →
    Option (List (String × List String))
  | [], _, _ => none
  | (k, v) :: rest, p, d =>
    if k = p then some ((k, setAdd v d) :: rest)
    else (graphAddEdge rest p d).map (fun g => (k, v) :: g)

/-- Python `list.index`: index of the first occurrence, `none` models the
`ValueError` when the element is absent. -/
def indexOfOpt : List String → String → Option Nat
  | [], _ => none
  | x :: xs, p => if x = p then some 0 else (indexOfOpt xs p).map (fun i => i + 1)

/-- The mutable fields of `DependencyGraph`, plus the ghost `resolveLog`. -/
structure DepState where
  graph : List (String × List String)
  visited : List String
  inProgress : List String
  cycles : List (List String)
  resolveLog : List String
  deriving DecidableEq, Repr

/-- The state set up by `DependencyGraph.__init__`: everything empty. -/
def initState : DepState :=
  { graph := [], visited := [], inProgress := [], cycles := [], resolveLog := [] }

mutual

/-- `DependencyGraph.dfs(package, depth, path)` from `3stage.py`.
The dependency source `resolve` abstracts `get_deps`; each call is
recorded in the ghost `resolveLog`.  Each recursive call receives
`path ++ [package]`, matching Python's `path[:]` copy of the mutated
local list (the trailing `path.pop()` acts on a copy nobody reads). -/
def dfs (resolve : String → List String) (maxDepth : Nat)
    (package : String) (depth : Nat) (path : List String) (st : DepState) :
    Option DepState :=
  if _h : depth > maxDepth then
    some st
  else if package ∈ st.inProgress then
    (indexOfOpt path package).map (fun cycleStart =>
      { st with cycles := st.cycles ++ [path.drop cycleStart ++ [package]] })
  else if package ∈ st.visited then
    some st
  else
    let st1 := { st with inProgress := setAdd st.inProgress package }
    let path1 := path ++ [package]
    let deps := resolve package
    let st2 := { st1 with resolveLog := st1.resolveLog ++ [package] }
    let st3 :=
      if (lookupGraph st2.graph package).isSome then st2
      else { st2 with graph := st2.graph ++ [(package, [])] }
    (dfsList resolve maxDepth deps package (depth + 1) path1 st3).map
      (fun st4 =>
        { st4 with
            inProgress := st4.inProgress.erase package
            visited := setAdd st4.visited package })
termination_by (maxDepth + 1 - depth, 0)

/-- The `for dep in deps` loop inside `DependencyGraph.dfs`: record the
edge `package -> dep`, then recurse into `dep` at the incremented depth. -/
def dfsList (resolve : String → List String) (maxDepth : Nat)
    (deps : List String) (package : String) (depth : Nat) (path : List String)
    (st : DepState) : Option DepState :=
  match deps with
  | [] => some st
  | dep :: rest =>
    (graphAddEdge st.graph package dep).bind (fun g =>
      (dfs resolve maxDepth dep depth path { st with graph := g }).bind
        (fun st2 => dfsList resolve maxDepth rest package depth path st2))
termination_by (maxDepth + 1 - depth, deps.length + 1)

end

/-- `DependencyGraph.build(root_package)`: run the DFS from the root at
depth 0 with an empty path on the freshly initialized state. -/
def build (resolve : String → List String) (maxDepth : Nat) (root : String) :
    Option DepState :=
  dfs resolve maxDepth root 0 [] initState

/-- Python `str.strip()`: remove leading and trailing whitespace. -/
def pyStrip (s : String) : String :=
  ⟨((s.data.dropWhile Char.isWhitespace).reverse.dropWhile
      Char.isWhitespace).reverse⟩

/-- Split a character list at every occurrence of `sep` (Python
`str.split(sep)` without a maxsplit: `n` separators yield `n + 1`
parts, and the empty string yields one empty part). -/
def splitOnChar (sep : Char) : List Char → List (List Char)
  | [] => [[]]
  | c :: rest =>
    if c = sep then [] :: splitOnChar sep rest
    else
      match splitOnChar sep rest with
      | [] => [[c]]
      | p :: ps => (c :: p) :: ps

/-- Python `str.split(sep)` for a one-character separator. -/
def pySplit (sep : Char) (s : String) : List String :=
  (splitOnChar sep s.data).map (fun cs => ⟨cs⟩)

/-- Python `line.startswith('#')`. -/
def pyStartsWithHash (s : String) : Bool :=
  match s.data with
  | c :: _ => c = '#'
  | [] => false

/-- One iteration of the line loop of `load_test_repo` in `3stage.py`:
`line = line.strip()`; skip blank and `#` lines; split on `:`; two
parts declare a package with comma-separated dependencies (each token
stripped, empty tokens dropped); one part declares a package with no
dependencies; any other shape is skipped silently. -/
def loadLine (graph : List (String × List String)) (rawLine : String) :
    List (String × List String) :=
  let line := pyStrip rawLine
  if line = "" ∨ pyStartsWithHash line = true then graph
  else
    match pySplit ':' line with
    | [p, ds] =>
      dictInsert graph (pyStrip p)
        (((pySplit ',' (pyStrip ds)).map pyStrip).filter (fun d => d != ""))
    | [p] => dictInsert graph (pyStrip p) []
    | _ => graph

/-- `load_test_repo` from `3stage.py`, over the list of lines of the file. -/
def load_test_repo (lines : List String) : List (String × List String) :=
  lines.foldl loadLine []

/-- `DependencyGraph.get_deps` in test mode: `self.test_graph.get(package, [])`. -/
def get_deps (test_graph : List (String × List String)) (package : String) :
    List String :=
  (lookupGraph test_graph package).getD []

/-- Outcome of one `urllib` round trip (plus response decoding): a value,
an `HTTPError` with a status code, or any other exception (URLError,
timeout, JSON decode failure, ...). -/
inductive Fetch (α : Type) where
  | ok (val : α)
  | httpError (code : Nat)
  | fail

/-- One entry of the crates.io dependency manifest. -/
structure DepEntry where
  kind : String
  crate_id : String

/-- `get_dependencies_from_crates_io` from `3stage.py`.  `fetchVersions`
is the versions request (yielding the list of version numbers) and
`fetchDeps` the per-version dependencies request; the surrounding
`try/except` becomes the final match: `HTTPError` with code 404 is
turned into `[]`, any other `HTTPError` is re-raised (`Except.error`),
and every other exception is swallowed with a warning, returning `[]`. -/
def get_dependencies_from_crates_io
    (fetchVersions : Fetch (List String))
    (fetchDeps : String → Fetch (List DepEntry)) : Except String (List String) :=
  let body : Fetch (List String) :=
    match fetchVersions with
    | .httpError c => .httpError c
    | .fail => .fail
    | .ok versions =>
      match versions with
      | [] => .ok []
      | versionNum :: _ =>
        match fetchDeps versionNum with
        | .httpError c => .httpError c
        | .fail => .fail
        | .ok depsData =>
          .ok ((depsData.filter (fun d => d.kind == "normal")).map
                (fun d => d.crate_id))
  match body with
  | .ok deps => .ok deps
  | .httpError c =>
    if c = 404 then .ok [] else .error "HTTP error for package"
  | .fail => .ok []

/-- The diamond fixture `a: b, c / b: d / c: d / d:` as an adjacency list. -/
def diamondTG : List (String × List String) :=
  [("a", ["b", "c"]), ("b", ["d"]), ("c", ["d"]), ("d", [])]

/-- The three-node directed-cycle fixture `a: b / b: c / c: a`. -/
def cycleTG : List (String × List String) :=
  [("a", ["b"]), ("b", ["c"]), ("c", ["a"])]

/-- The state after the entry bookkeeping of an expansion of `pkg`:
mark in-progress, log the resolver call, create the graph key if absent. -/
def expandState (st : DepState) (pkg : String) : DepState :=
  let st2 := { st with
                 inProgress := setAdd st.inProgress pkg
                 resolveLog := st.resolveLog ++ [pkg] }
  if (lookupGraph st2.graph pkg).isSome then st2
  else { st2 with graph := st2.graph ++ [(pkg, [])] }

/-- `Edge resolve a b`: the dependency source lists `b` as a direct
dependency of `a`. -/
def Edge (resolve : String → List String) (a b : String) : Prop :=
  b ∈ resolve a

/-- A fixture (or any dependency source) is acyclic when no package
reaches itself through one or more dependency edges. -/
def Acyclic (resolve : String → List String) : Prop :=
  ∀ x, ¬ Relation.TransGen (Edge resolve) x x

/-- Consecutive elements of the list are related by `R`. -/
def chainList (R : String → String → Prop) : List String → Prop
  | [] => True
  | [_] => True
  | a :: b :: rest => R a b ∧ chainList R (b :: rest)

/-- The invariant tying the traversal state to the path of the current
call: the in-progress set is exactly the set of packages on the path,
the path has no duplicates, visited packages are never on the path, and
the resolver has been invoked exactly for the packages that are visited
or in progress, each at most once. -/
def Inv (st : DepState) (path : List String) : Prop :=
  (∀ x, x ∈ st.inProgress ↔ x ∈ path) ∧
  path.Nodup ∧
  (∀ x, x ∈ st.visited → x ∉ path) ∧
  (∀ x, x ∈ st.resolveLog → x ∈ st.visited ∨ x ∈ st.inProgress) ∧
  st.resolveLog.Nodup

/-- What one `dfs` call guarantees, relating its entry state `st` to its
result state `st'`. -/
structure PostD (resolve : String → List String) (pkg : String)
    (path : List String) (st st' : DepState) : Prop where
  ip_eq : st'.inProgress = st.inProgress
  vis_mono : ∀ x, x ∈ st.visited → x ∈ st'.visited
  vis_path : ∀ x, x ∈ st'.visited → x ∉ path
  log_inv : ∀ x, x ∈ st'.resolveLog → x ∈ st'.visited ∨ x ∈ st'.inProgress
  log_nd : st'.resolveLog.Nodup
  cyc : chainList (Edge resolve) (path ++ [pkg]) →
    (∃ x, Relation.TransGen (Edge resolve) x x) ∨ st'.cycles = st.cycles
  mono : ∀ q v, lookupGraph st.graph q = some v →
    ∃ w, lookupGraph st'.graph q = some w ∧ ∀ e, e ∈ v → e ∈ w
  froz_vis : ∀ q, q ∈ st.visited →
    lookupGraph st'.graph q = lookupGraph st.graph q
  froz_ip : ∀ q, q ∈ st.inProgress →
    lookupGraph st'.graph q = lookupGraph st.graph q

/-- The final state of a run of `build` on the empty fixture with root
`a` and `maxDepth = 0`; used as a concrete instantiation point. -/
def emptyFixtureRun : DepState :=
  { graph := [("a", [])], visited := ["a"], inProgress := [], cycles := [],
    resolveLog := ["a"] }

/-- The final state of `build` on the diamond fixture, root `a`,
`maxDepth = 1`. -/
def diamondRun1 : DepState :=
  { graph := [("a", ["b", "c"]), ("b", ["d"]), ("c", ["d"])],
    visited := ["b", "c", "a"], inProgress := [], cycles := [],
    resolveLog := ["a", "b", "c"] }

/-- The final state of `build` on the diamond fixture, root `a`, any
`maxDepth ≥ 3`. -/
def diamondRun3 : DepState :=
  { graph := [("a", ["b", "c"]), ("b", ["d"]), ("d", []), ("c", ["d"])],
    visited := ["d", "b", "c", "a"], inProgress := [], cycles := [],
    resolveLog := ["a", "b", "d", "c"] }

/-- The final state of `build` on the directed-cycle fixture, root `a`,
any `maxDepth ≥ 3`. -/
def cycleRun : DepState :=
  { graph := [("a", ["b"]), ("b", ["c"]), ("c", ["a"])],
    visited := ["c", "b", "a"], inProgress := [],
    cycles := [["a", "b", "c", "a"]], resolveLog := ["a", "b", "c"] }

/-! ### One-step unfolding lemmas for `dfs` and `dfsList` -/

theorem dfs_prune (resolve : String → List String) (maxDepth : Nat)
    (pkg : String) (depth : Nat) (path : List String) (st : DepState)
    (hd : depth > maxDepth) :
    dfs resolve maxDepth pkg depth path st = some st := by
  rw [dfs]
  exact dif_pos hd

theorem dfs_cycle (resolve : String → List String) (maxDepth : Nat)
    (pkg : String) (depth : Nat) (path : List String) (st : DepState)
    (hd : ¬ depth > maxDepth) (hip : pkg ∈ st.inProgress) :
    dfs resolve maxDepth pkg depth path st =
      (indexOfOpt path pkg).map (fun cycleStart =>
        { st with cycles := st.cycles ++ [path.drop cycleStart ++ [pkg]] }) := by
  rw [dfs, dif_neg hd, if_pos hip]

theorem dfs_visited (resolve : String → List String) (maxDepth : Nat)
    (pkg : String) (depth : Nat) (path : List String) (st : DepState)
    (hd : ¬ depth > maxDepth) (hip : pkg ∉ st.inProgress)
    (hv : pkg ∈ st.visited) :
    dfs resolve maxDepth pkg depth path st = some st := by
  rw [dfs, dif_neg hd, if_neg hip, if_pos hv]

theorem dfs_expand (resolve : String → List String) (maxDepth : Nat)
    (pkg : String) (depth : Nat) (path : List String) (st : DepState)
    (hd : ¬ depth > maxDepth) (hip : pkg ∉ st.inProgress)
    (hv : pkg ∉ st.visited) :
    dfs resolve maxDepth pkg depth path st =
      (dfsList resolve maxDepth (resolve pkg) pkg (depth + 1) (path ++ [pkg])
        (expandState st pkg)).map
        (fun st4 =>
          { st4 with
              inProgress := st4.inProgress.erase pkg
              visited := setAdd st4.visited pkg }) := by
  rw [dfs, dif_neg hd, if_neg hip, if_neg hv]
  rfl

theorem dfsList_nil (resolve : String → List String) (maxDepth : Nat)
    (pkg : String) (depth : Nat) (path : List String) (st : DepState) :
    dfsList resolve maxDepth [] pkg depth path st = some st := by
  rw [dfsList]

theorem dfsList_cons (resolve : String → List String) (maxDepth : Nat)
    (dep : String) (rest : List String) (pkg : String) (depth : Nat)
    (path : List String) (st : DepState) :
    dfsList resolve maxDepth (dep :: rest) pkg depth path st =
      (graphAddEdge st.graph pkg dep).bind (fun g =>
        (dfs resolve maxDepth dep depth path { st with graph := g }).bind
          (fun st2 => dfsList resolve maxDepth rest pkg depth path st2)) := by
  rw [dfsList]

/-! ### Helper lemmas about the small data-structure operations -/

theorem mem_setAdd (s : List String) (a x : String) :
    x ∈ setAdd s a ↔ x ∈ s ∨ x = a := by
  unfold setAdd
  by_cases h : a ∈ s
  · rw [if_pos h]
    constructor
    · exact Or.inl
    · rintro (hx | rfl)
      · exact hx
      · exact h
  · rw [if_neg h]
    simp [List.mem_append]

theorem mem_setAdd_self (s : List String) (a : String) : a ∈ setAdd s a := by
  rw [mem_setAdd]
  exact Or.inr rfl

theorem setAdd_subset (s : List String) (a : String) : s ⊆ setAdd s a := by
  intro x hx
  rw [mem_setAdd]
  exact Or.inl hx

theorem nodup_setAdd (s : List String) (a : String) (h : s.Nodup) :
    (setAdd s a).Nodup := by
  unfold setAdd
  by_cases ha : a ∈ s
  · rwa [if_pos ha]
  · rw [if_neg ha]
    simp [List.nodup_append, h, ha]

theorem erase_append_singleton (s : List String) (a : String) (h : a ∉ s) :
    (s ++ [a]).erase a = s := by
  induction s with
  | nil => simp
  | cons b s ih =>
    have hb : ¬ (b == a) = true := by
      simp only [beq_iff_eq]
      intro hba
      exact h (hba ▸ List.mem_cons_self b s)
    rw [List.cons_append, List.erase_cons, if_neg hb,
        ih (fun hs => h (List.mem_cons_of_mem b hs))]

theorem setAdd_erase (s : List String) (a : String) (h : a ∉ s) :
    (setAdd s a).erase a = s := by
  rw [setAdd, if_neg h]
  exact erase_append_singleton s a h

theorem lookupGraph_append_left (g l : List (String × List String))
    (q : String) (v : List String) (h : lookupGraph g q = some v) :
    lookupGraph (g ++ l) q = some v := by
  induction g with
  | nil => simp [lookupGraph] at h
  | cons kv g ih =>
    rw [List.cons_append, lookupGraph]
    rw [lookupGraph] at h
    by_cases hk : kv.1 = q
    · rwa [if_pos hk] at h ⊢
    · rw [if_neg hk] at h ⊢
      exact ih h

theorem lookupGraph_append_fresh (g : List (String × List String))
    (q : String) (v : List String) (h : lookupGraph g q = none) :
    lookupGraph (g ++ [(q, v)]) q = some v := by
  induction g with
  | nil => simp [lookupGraph]
  | cons kv g ih =>
    rw [List.cons_append, lookupGraph]
    rw [lookupGraph] at h
    by_cases hk : kv.1 = q
    · rw [if_pos hk] at h
      exact absurd h (by simp)
    · rw [if_neg hk] at h ⊢
      exact ih h

theorem lookupGraph_append_ne (g : List (String × List String))
    (k q : String) (v : List String) (h : q ≠ k) :
    lookupGraph (g ++ [(k, v)]) q = lookupGraph g q := by
  induction g with
  | nil =>
    simp only [List.nil_append, lookupGraph]
    rw [if_neg (fun hk => h hk.symm)]
  | cons kv g ih =>
    rw [List.cons_append, lookupGraph, lookupGraph]
    by_cases hk : kv.1 = q
    · rw [if_pos hk, if_pos hk]
    · rw [if_neg hk, if_neg hk]
      exact ih

theorem lookupGraph_keys_none (g : List (String × List String)) (q : String)
    (h : lookupGraph g q = none) : q ∉ g.map Prod.fst := by
  induction g with
  | nil => simp
  | cons kv g ih =>
    rw [lookupGraph] at h
    by_cases hk : kv.1 = q
    · rw [if_pos hk] at h
      exact absurd h (by simp)
    · rw [if_neg hk] at h
      simp only [List.map_cons, List.mem_cons]
      rintro (hq | hq)
      · exact hk hq.symm
      · exact ih h hq

theorem graphAddEdge_spec (g : List (String × List String)) (p d : String)
    (v : List String) (h : lookupGraph g p = some v) :
    ∃ g', graphAddEdge g p d = some g' ∧
      lookupGraph g' p = some (setAdd v d) ∧
      (∀ q, q ≠ p → lookupGraph g' q = lookupGraph g q) ∧
      g'.map Prod.fst = g.map Prod.fst := by
  induction g with
  | nil => simp [lookupGraph] at h
  | cons kv g ih =>
    obtain ⟨k1, v1⟩ := kv
    rw [lookupGraph] at h
    by_cases hk : k1 = p
    · rw [if_pos hk] at h
      obtain rfl : v1 = v := Option.some.inj h
      refine ⟨(k1, setAdd v1 d) :: g, ?_, ?_, ?_, ?_⟩
      · rw [graphAddEdge, if_pos hk]
      · rw [lookupGraph, if_pos hk]
      · intro q hq
        rw [lookupGraph, lookupGraph]
        by_cases hq' : k1 = q
        · exact absurd (hq'.symm.trans hk) hq
        · rw [if_neg hq', if_neg hq']
      · simp
    · rw [if_neg hk] at h
      obtain ⟨g', hg', hlook, hother, hkeys⟩ := ih h
      refine ⟨(k1, v1) :: g', ?_, ?_, ?_, ?_⟩
      · rw [graphAddEdge, if_neg hk, hg']
        rfl
      · rw [lookupGraph, if_neg hk]
        exact hlook
      · intro q hq
        rw [lookupGraph, lookupGraph]
        by_cases hq' : k1 = q
        · rw [if_pos hq', if_pos hq']
        · rw [if_neg hq', if_neg hq']
          exact hother q hq
      · simp [hkeys]

theorem indexOfOpt_isSome (l : List String) (x : String) (h : x ∈ l) :
    ∃ i, indexOfOpt l x = some i := by
  induction l with
  | nil => simp at h
  | cons a l ih =>
    rw [indexOfOpt]
    by_cases ha : a = x
    · exact ⟨0, if_pos ha⟩
    · rw [if_neg ha]
      have hx : x ∈ l := by
        rcases List.mem_cons.mp h with h1 | h1
        · exact absurd h1.symm ha
        · exact h1
      obtain ⟨i, hi⟩ := ih hx
      exact ⟨i + 1, by rw [hi]; rfl⟩

theorem nodup_append_singleton (l : List String) (a : String)
    (h : l.Nodup) (ha : a ∉ l) : (l ++ [a]).Nodup := by
  simp [List.nodup_append, h, ha]

/-! ### Chains along the DFS path -/

theorem chainList_tail (R : String → String → Prop) (a : String)
    (l : List String) (h : chainList R (a :: l)) : chainList R l := by
  cases l with
  | nil => trivial
  | cons b l => exact h.2

theorem chainList_drop (R : String → String → Prop) (u l : List String)
    (h : chainList R (u ++ l)) : chainList R l := by
  induction u with
  | nil => exact h
  | cons a u ih => exact ih (chainList_tail R a (u ++ l) h)

theorem chainList_snoc (R : String → String → Prop) (l : List String)
    (a b : String) (h : chainList R (l ++ [a])) (hab : R a b) :
    chainList R (l ++ [a] ++ [b]) := by
  induction l with
  | nil => exact ⟨hab, trivial⟩
  | cons c l ih =>
    cases l with
    | nil => exact ⟨h.1, ⟨hab, trivial⟩⟩
    | cons d l => exact ⟨h.1, ih h.2⟩

theorem chainList_transGen (R : String → String → Prop) :
    ∀ (w : List String) (x y : String), chainList R (x :: w ++ [y]) →
      Relation.TransGen R x y := by
  intro w
  induction w with
  | nil => exact fun x y h => Relation.TransGen.single h.1
  | cons a w ih =>
    intro x y h
    exact Relation.TransGen.head h.1 (ih a y h.2)

theorem chainList_cycle (R : String → String → Prop) (path : List String)
    (pkg : String) (hmem : pkg ∈ path)
    (hchain : chainList R (path ++ [pkg])) :
    Relation.TransGen R pkg pkg := by
  obtain ⟨u, v, rfl⟩ := List.append_of_mem hmem
  have h1 : chainList R (pkg :: (v ++ [pkg])) := by
    have := chainList_drop R u ((pkg :: v) ++ [pkg])
      (by simpa [List.append_assoc] using hchain)
    simpa using this
  exact chainList_transGen R v pkg pkg h1

theorem inv_init : Inv initState [] := by
  refine ⟨?_, ?_, ?_, ?_, ?_⟩ <;> simp [initState]

/-- The do-nothing instance of `PostD` (prune and memoized-return cases). -/
theorem postD_refl (resolve : String → List String) (pkg : String)
    (path : List String) (st : DepState)
    (hVP : ∀ x, x ∈ st.visited → x ∉ path)
    (hLog : ∀ x, x ∈ st.resolveLog → x ∈ st.visited ∨ x ∈ st.inProgress)
    (hLogND : st.resolveLog.Nodup) : PostD resolve pkg path st st :=
  ⟨rfl, fun _ h => h, hVP, hLog, hLogND, fun _ => Or.inr rfl,
    fun _ v h => ⟨v, h, fun _ he => he⟩, fun _ _ => rfl, fun _ _ => rfl⟩

/-- Elementary facts about `expandState st pkg`. -/
theorem expandState_spec (st : DepState) (pkg : String) :
    (expandState st pkg).inProgress = setAdd st.inProgress pkg ∧
    (expandState st pkg).visited = st.visited ∧
    (expandState st pkg).resolveLog = st.resolveLog ++ [pkg] ∧
    (expandState st pkg).cycles = st.cycles ∧
    (∃ v0, lookupGraph (expandState st pkg).graph pkg = some v0) ∧
    (∀ q, q ≠ pkg →
      lookupGraph (expandState st pkg).graph q = lookupGraph st.graph q) ∧
    (∀ q w, lookupGraph st.graph q = some w →
      lookupGraph (expandState st pkg).graph q = some w) := by
  unfold expandState
  by_cases h : (lookupGraph st.graph pkg).isSome
  · rw [if_pos h]
    obtain ⟨v0, hv0⟩ := Option.isSome_iff_exists.mp h
    exact ⟨rfl, rfl, rfl, rfl, ⟨v0, hv0⟩, fun q _ => rfl, fun q w hw => hw⟩
  · rw [if_neg h]
    have hnone : lookupGraph st.graph pkg = none := by
      cases hl : lookupGraph st.graph pkg with
      | none => rfl
      | some v => rw [hl] at h; exact absurd rfl h
    refine ⟨rfl, rfl, rfl, rfl,
      ⟨[], lookupGraph_append_fresh st.graph pkg [] hnone⟩, ?_, ?_⟩
    · intro q hq
      exact lookupGraph_append_ne st.graph pkg q [] hq
    · intro q w hw
      exact lookupGraph_append_left st.graph [(pkg, [])] q w hw

/-- Master preservation lemma for `dfs`: on any entry state satisfying
the traversal invariant, `dfs` cannot fail (no exception from
`path.index` or from the graph-edge write), and it preserves the
invariant, never touches the in-progress set across the call, grows the
visited set and the recorded edge sets monotonically, writes no edge set
of an already-visited or suspended (in-progress) package, and appends a
cycle only if the dependency relation really has a cycle. -/
theorem dfs_master (resolve : String → List String) (maxDepth : Nat) :
    ∀ (n depth : Nat), maxDepth + 1 - depth ≤ n →
    ∀ (pkg : String) (path : List String) (st : DepState), Inv st path →
    ∃ st', dfs resolve maxDepth pkg depth path st = some st' ∧
      PostD resolve pkg path st st' := by
  intro n
  induction n using Nat.strong_induction_on with
  | h n ih =>
  intro depth hn pkg path st hInv
  obtain ⟨hIP, hND, hVP, hLog, hLogND⟩ := hInv
  by_cases hd : depth > maxDepth
  · rw [dfs_prune resolve maxDepth pkg depth path st hd]
    exact ⟨st, rfl, postD_refl resolve pkg path st hVP hLog hLogND⟩
  by_cases hip : pkg ∈ st.inProgress
  · -- cycle branch: the package is an ancestor on the current path
    have hmem : pkg ∈ path := (hIP pkg).mp hip
    obtain ⟨i, hi⟩ := indexOfOpt_isSome path pkg hmem
    rw [dfs_cycle resolve maxDepth pkg depth path st hd hip, hi,
        Option.map_some']
    refine ⟨_, rfl, rfl, fun x h => h, hVP, hLog, hLogND, ?_,
      fun _ v h => ⟨v, h, fun _ he => he⟩, fun _ _ => rfl, fun _ _ => rfl⟩
    intro hchain
    exact Or.inl ⟨pkg, chainList_cycle (Edge resolve) path pkg hmem hchain⟩
  by_cases hv : pkg ∈ st.visited
  · rw [dfs_visited resolve maxDepth pkg depth path st hd hip hv]
    exact ⟨st, rfl, postD_refl resolve pkg path st hVP hLog hLogND⟩
  -- expansion branch
  have hnd1 : pkg ∉ path := fun hm => hip ((hIP pkg).mpr hm)
  obtain ⟨hEip, hEvis, hElog, hEcyc, ⟨v0, hEkey⟩, hEne, hEmono⟩ :=
    expandState_spec st pkg
  -- the loop over the direct dependencies
  have hlist : ∀ (deps : List String) (st0 : DepState),
      (∀ d, d ∈ deps → d ∈ resolve pkg) →
      (∀ x, x ∈ st0.inProgress ↔ x ∈ path ++ [pkg]) →
      (∀ x, x ∈ st0.visited → x ∉ path ++ [pkg]) →
      (∀ x, x ∈ st0.resolveLog → x ∈ st0.visited ∨ x ∈ st0.inProgress) →
      st0.resolveLog.Nodup →
      (∃ u, lookupGraph st0.graph pkg = some u) →
      ∃ st', dfsList resolve maxDepth deps pkg (depth + 1) (path ++ [pkg])
          st0 = some st' ∧
        st'.inProgress = st0.inProgress ∧
        (∀ x, x ∈ st0.visited → x ∈ st'.visited) ∧
        (∀ x, x ∈ st'.visited → x ∉ path ++ [pkg]) ∧
        (∀ x, x ∈ st'.resolveLog → x ∈ st'.visited ∨ x ∈ st'.inProgress) ∧
        st'.resolveLog.Nodup ∧
        (chainList (Edge resolve) (path ++ [pkg]) →
          (∃ x, Relation.TransGen (Edge resolve) x x) ∨
            st'.cycles = st0.cycles) ∧
        (∀ q v, lookupGraph st0.graph q = some v →
          ∃ w, lookupGraph st'.graph q = some w ∧ ∀ e, e ∈ v → e ∈ w) ∧
        (∀ q, q ∈ st0.visited →
          lookupGraph st'.graph q = lookupGraph st0.graph q) ∧
        (∀ q, q ∈ st0.inProgress → q ≠ pkg →
          lookupGraph st'.graph q = lookupGraph st0.graph q) := by
    intro deps
    induction deps with
    | nil =>
      intro st0 _ _ hVP0 hLog0 hLogND0 _
      rw [dfsList_nil]
      exact ⟨st0, rfl, rfl, fun _ h => h, hVP0, hLog0, hLogND0,
        fun _ => Or.inr rfl, fun _ v h => ⟨v, h, fun _ he => he⟩,
        fun _ _ => rfl, fun _ _ _ => rfl⟩
    | cons d rest ihd =>
      intro st0 hdeps hIP0 hVP0 hLog0 hLogND0 ⟨u0, hu0⟩
      obtain ⟨g1, hg1, hg1pkg, hg1ne, hg1keys⟩ :=
        graphAddEdge_spec st0.graph pkg d u0 hu0
      have hpkgIP0 : pkg ∈ st0.inProgress :=
        (hIP0 pkg).mpr (by simp)
      -- the inner recursive dfs call, one level deeper
      have hInvA : Inv { st0 with graph := g1 } (path ++ [pkg]) := by
        refine ⟨hIP0, nodup_append_singleton path pkg hND hnd1, hVP0,
          hLog0, hLogND0⟩
      obtain ⟨stB, hB, hPostB⟩ :=
        ih (maxDepth - depth) (by omega) (depth + 1) (by omega) d
          (path ++ [pkg]) { st0 with graph := g1 } hInvA
      -- the rest of the loop
      obtain ⟨st', h', hip', hvm', hvp', hlog', hlognd', hcyc', hmono',
          hfv', hfi'⟩ :=
        ihd stB (fun x hx => hdeps x (List.mem_cons_of_mem d hx))
          (fun x => by rw [hPostB.ip_eq]; exact hIP0 x)
          hPostB.vis_path
          hPostB.log_inv
          hPostB.log_nd
          (by
            obtain ⟨w, hw, _⟩ :=
              hPostB.mono pkg (setAdd u0 d) hg1pkg
            exact ⟨w, hw⟩)
      refine ⟨st', ?_, ?_, ?_, hvp', hlog', hlognd', ?_, ?_, ?_, ?_⟩
      · rw [dfsList_cons, hg1, Option.some_bind, hB, Option.some_bind]
        exact h'
      · rw [hip', hPostB.ip_eq]
      · intro x hx
        exact hvm' x (hPostB.vis_mono x hx)
      · -- cycles
        intro hchain
        have hchain1 : chainList (Edge resolve) (path ++ [pkg] ++ [d]) :=
          chainList_snoc (Edge resolve) path pkg d hchain
            (hdeps d (List.mem_cons_self d rest))
        rcases hcyc' hchain with hex | heq
        · exact Or.inl hex
        · rcases hPostB.cyc hchain1 with hex | heqB
          · exact Or.inl hex
          · exact Or.inr (by rw [heq, heqB])
      · -- graph monotonicity
        intro q v hq
        by_cases hqp : q = pkg
        · subst hqp
          obtain rfl : u0 = v := Option.some.inj ((hu0.symm.trans hq))
          obtain ⟨w1, hw1, hsub1⟩ := hPostB.mono q (setAdd u0 d) hg1pkg
          obtain ⟨w2, hw2, hsub2⟩ := hmono' q w1 hw1
          exact ⟨w2, hw2, fun e he =>
            hsub2 e (hsub1 e (setAdd_subset u0 d he))⟩
        · obtain ⟨w1, hw1, hsub1⟩ := hPostB.mono q v (by
            show lookupGraph g1 q = some v
            rw [hg1ne q hqp]
            exact hq)
          obtain ⟨w2, hw2, hsub2⟩ := hmono' q w1 hw1
          exact ⟨w2, hw2, fun e he => hsub2 e (hsub1 e he)⟩
      · -- edge sets of visited packages are untouched
        intro q hq
        have hqp : q ≠ pkg := by
          intro hqe
          exact hVP0 q hq (by rw [hqe]; simp)
        have e1 : lookupGraph g1 q = lookupGraph st0.graph q := hg1ne q hqp
        have e2 : lookupGraph stB.graph q = lookupGraph g1 q :=
          hPostB.froz_vis q hq
        have e3 : lookupGraph st'.graph q = lookupGraph stB.graph q :=
          hfv' q (hPostB.vis_mono q hq)
        rw [e3, e2, e1]
      · -- edge sets of other in-progress packages are untouched
        intro q hq hqp
        have e1 : lookupGraph g1 q = lookupGraph st0.graph q := hg1ne q hqp
        have e2 : lookupGraph stB.graph q = lookupGraph g1 q :=
          hPostB.froz_ip q hq
        have e3 : lookupGraph st'.graph q = lookupGraph stB.graph q :=
          hfi' q (by rw [hPostB.ip_eq]; exact hq) hqp
        rw [e3, e2, e1]
  -- apply the loop lemma to the expansion entry state
  have hpkgE : pkg ∈ setAdd st.inProgress pkg := mem_setAdd_self _ pkg
  obtain ⟨st4, h4, hip4, hvm4, hvp4, hlog4, hlognd4, hcyc4, hmono4, hfv4,
      hfi4⟩ :=
    hlist (resolve pkg) (expandState st pkg) (fun _ h => h)
      (by
        intro x
        rw [hEip, mem_setAdd]
        simp only [List.mem_append, List.mem_singleton]
        exact Iff.rfl.trans (or_congr (hIP x) Iff.rfl))
      (by
        intro x hx
        rw [hEvis] at hx
        simp only [List.mem_append, List.mem_singleton]
        rintro (hpx | rfl)
        · exact hVP x hx hpx
        · exact hv hx)
      (by
        intro x hx
        rw [hElog] at hx
        rw [hEvis, hEip]
        rcases List.mem_append.mp hx with hx | hx
        · rcases hLog x hx with h1 | h1
          · exact Or.inl h1
          · exact Or.inr (setAdd_subset _ pkg h1)
        · rw [List.mem_singleton] at hx
          subst hx
          exact Or.inr (mem_setAdd_self _ x))
      (by
        rw [hElog]
        have hnl : pkg ∉ st.resolveLog := by
          intro hl
          rcases hLog pkg hl with h1 | h1
          · exact hv h1
          · exact hip h1
        exact nodup_append_singleton st.resolveLog pkg hLogND hnl)
      ⟨v0, hEkey⟩
  rw [dfs_expand resolve maxDepth pkg depth path st hd hip hv, h4,
      Option.map_some']
  refine ⟨_, rfl, ?_, ?_, ?_, ?_, hlognd4, ?_, ?_, ?_, ?_⟩
  · -- in-progress is restored
    show st4.inProgress.erase pkg = st.inProgress
    rw [hip4, hEip, setAdd_erase st.inProgress pkg hip]
  · -- visited grows
    intro x hx
    show x ∈ setAdd st4.visited pkg
    exact setAdd_subset st4.visited pkg (hvm4 x (by rw [hEvis]; exact hx))
  · -- visited stays off the entry path
    intro x hx
    rcases (mem_setAdd st4.visited pkg x).mp hx with hx | rfl
    · intro hpx
      exact hvp4 x hx (List.mem_append.mpr (Or.inl hpx))
    · exact hnd1
  · -- resolver-log classification
    intro x hx
    rcases hlog4 x hx with h1 | h1
    · exact Or.inl (setAdd_subset st4.visited pkg h1)
    · rw [hip4, hEip] at h1
      rcases (mem_setAdd st.inProgress pkg x).mp h1 with h1 | rfl
      · exact Or.inr (by
          show x ∈ st4.inProgress.erase pkg
          rw [hip4, hEip, setAdd_erase st.inProgress pkg hip]
          exact h1)
      · exact Or.inl (mem_setAdd_self st4.visited x)
  · -- a cycle is recorded only if the dependency relation has one
    intro hchain
    rcases hcyc4 hchain with hex | heq
    · exact Or.inl hex
    · exact Or.inr (by
        show st4.cycles = st.cycles
        rw [heq, hEcyc])
  · -- graph monotonicity
    intro q v hq
    exact hmono4 q v (hEmono q v hq)
  · -- visited packages frozen
    intro q hq
    have hqp : q ≠ pkg := fun he => hv (he ▸ hq)
    have e1 := hEne q hqp
    have e2 := hfv4 q (by rw [hEvis]; exact hq)
    show lookupGraph st4.graph q = lookupGraph st.graph q
    rw [e2, e1]
  · -- in-progress packages frozen
    intro q hq
    have hqp : q ≠ pkg := fun he => hip (he ▸ hq)
    have e1 := hEne q hqp
    have e2 := hfi4 q (by rw [hEip]; exact setAdd_subset _ pkg hq) hqp
    show lookupGraph st4.graph q = lookupGraph st.graph q
    rw [e2, e1]

/-- `dfs_master` specialized to `build`: the whole run from the fresh
state cannot fail, and its result satisfies `PostD` against the empty
entry state and path. -/
theorem build_master (resolve : String → List String) (maxDepth : Nat)
    (root : String) :
    ∃ st', build resolve maxDepth root = some st' ∧
      PostD resolve root [] initState st' :=
  dfs_master resolve maxDepth (maxDepth + 1) 0 (by omega) root [] initState
    inv_init

/-! ### Composition lemmas for executing concrete traces step by step -/

theorem dfs_cycle_eq {resolve : String → List String} {maxDepth : Nat}
    {pkg : String} {depth : Nat} {path : List String} {st : DepState}
    {i : Nat} (hd : ¬ depth > maxDepth) (hip : pkg ∈ st.inProgress)
    (hi : indexOfOpt path pkg = some i) :
    dfs resolve maxDepth pkg depth path st =
      some { st with cycles := st.cycles ++ [path.drop i ++ [pkg]] } := by
  rw [dfs_cycle resolve maxDepth pkg depth path st hd hip, hi,
      Option.map_some']

theorem dfs_expand_eq {resolve : String → List String} {maxDepth : Nat}
    {pkg : String} {depth : Nat} {path : List String} {st st4 : DepState}
    (hd : ¬ depth > maxDepth) (hip : pkg ∉ st.inProgress)
    (hv : pkg ∉ st.visited)
    (hlist : dfsList resolve maxDepth (resolve pkg) pkg (depth + 1)
      (path ++ [pkg]) (expandState st pkg) = some st4) :
    dfs resolve maxDepth pkg depth path st =
      some { st4 with
              inProgress := st4.inProgress.erase pkg
              visited := setAdd st4.visited pkg } := by
  rw [dfs_expand resolve maxDepth pkg depth path st hd hip hv, hlist,
      Option.map_some']

theorem dfsList_cons_eq {resolve : String → List String} {maxDepth : Nat}
    {dep : String} {rest : List String} {pkg : String} {depth : Nat}
    {path : List String} {st : DepState}
    {g : List (String × List String)} {st2 st' : DepState}
    (hg : graphAddEdge st.graph pkg dep = some g)
    (hdfs : dfs resolve maxDepth dep depth path { st with graph := g } =
      some st2)
    (hrest : dfsList resolve maxDepth rest pkg depth path st2 = some st') :
    dfsList resolve maxDepth (dep :: rest) pkg depth path st = some st' := by
  rw [dfsList_cons, hg, Option.some_bind, hdfs, Option.some_bind, hrest]

/-- Concrete run used by several witnesses: the empty fixture, root `a`,
`maxDepth = 0`. -/
theorem build_empty_eval :
    build (get_deps []) 0 "a" = some emptyFixtureRun := by
  simp [build, dfs, dfsList, initState, get_deps, lookupGraph, setAdd,
        graphAddEdge, indexOfOpt, emptyFixtureRun, expandState]

/-- The empty fixture has no dependency edges at all. -/
theorem acyclic_empty : Acyclic (get_deps []) := by
  have hedge : ∀ a b : String, ¬ Edge (get_deps []) a b := by
    intro a b h
    simp [Edge, get_deps, lookupGraph] at h
  intro x h
  cases h with
  | single h1 => exact hedge x x h1
  | tail _ h1 => exact hedge _ x h1

/-- When the loop depth already exceeds the bound, every recursive call
inside the `for dep in deps` loop prunes immediately: the loop only
accumulates the edges `pkg -> dep` and changes nothing else. -/
theorem dfsList_pruned (resolve : String → List String) (maxDepth : Nat)
    (pkg : String) (depth : Nat) (path : List String)
    (hd : depth > maxDepth) :
    ∀ (deps : List String) (st : DepState) (v : List String),
      lookupGraph st.graph pkg = some v →
      ∃ g, dfsList resolve maxDepth deps pkg depth path st =
          some { st with graph := g } ∧
        lookupGraph g pkg = some (deps.foldl setAdd v) ∧
        (∀ q, q ≠ pkg → lookupGraph g q = lookupGraph st.graph q) ∧
        g.map Prod.fst = st.graph.map Prod.fst := by
  intro deps
  induction deps with
  | nil =>
    intro st v hv
    refine ⟨st.graph, ?_, hv, fun q _ => rfl, rfl⟩
    rw [dfsList_nil]
  | cons d rest ihd =>
    intro st v hv
    obtain ⟨g1, hg1, hg1pkg, hg1ne, hg1keys⟩ :=
      graphAddEdge_spec st.graph pkg d v hv
    obtain ⟨g, hrun, hgpkg, hgne, hgkeys⟩ :=
      ihd { st with graph := g1 } (setAdd v d) hg1pkg
    refine ⟨g, ?_, hgpkg, ?_, ?_⟩
    · rw [dfsList_cons, hg1, Option.some_bind,
          dfs_prune resolve maxDepth d depth path _ hd, Option.some_bind]
      exact hrun
    · intro q hq
      rw [hgne q hq]
      exact hg1ne q hq
    · rw [hgkeys]
      exact hg1keys

theorem mem_foldl_setAdd :
    ∀ (deps acc : List String) (x : String),
      x ∈ deps.foldl setAdd acc ↔ x ∈ acc ∨ x ∈ deps := by
  intro deps
  induction deps with
  | nil => simp
  | cons d rest ihd =>
    intro acc x
    rw [List.foldl_cons, ihd (setAdd acc d) x, mem_setAdd]
    simp only [List.mem_cons]
    constructor
    · rintro ((h | h) | h)
      · exact Or.inl h
      · exact Or.inr (Or.inl h)
      · exact Or.inr (Or.inr h)
    · rintro (h | h | h)
      · exact Or.inl (Or.inl h)
      · exact Or.inl (Or.inr h)
      · exact Or.inr h

/-! ### The claims -/

/-- **C10** (safety of cycle reconstruction): whenever `dfs` is entered
with a package that is in the in-progress set, that package is on the
path (the in-progress set always equals the set of packages on the
current path copy), so `path.index(package)` succeeds and the cycle
slice is well defined — in the embedding, the cycle branch (and every
other potentially failing operation) never produces `none`, so `build`
always returns a final state, and that state has an empty in-progress
set. -/
theorem c10_build_safe (resolve : String → List String) (maxDepth : Nat)
    (root : String) :
    ∃ st', build resolve maxDepth root = some st' ∧ st'.inProgress = [] := by
  obtain ⟨st', h, hPost⟩ := build_master resolve maxDepth root
  exact ⟨st', h, by rw [hPost.ip_eq]; rfl⟩

/-- **C4**: for every acyclic fixture graph, every root and every
`maxDepth`, the cycle list is empty after `build` returns. -/
theorem c4_acyclic_no_cycles (tg : List (String × List String))
    (maxDepth : Nat) (root : String) (st' : DepState)
    (hacyc : Acyclic (get_deps tg))
    (hrun : build (get_deps tg) maxDepth root = some st') :
    st'.cycles = [] := by
  obtain ⟨st'', h, hPost⟩ := build_master (get_deps tg) maxDepth root
  obtain rfl : st'' = st' := Option.some.inj (h.symm.trans hrun)
  rcases hPost.cyc trivial with ⟨x, hx⟩ | heq
  · exact absurd hx (hacyc x)
  · rw [heq]
    rfl

/-- Witness for C4 at the concrete empty fixture. -/
theorem c4_acyclic_no_cycles_witness :
    build (get_deps []) 0 "a" = some emptyFixtureRun ∧
      emptyFixtureRun.cycles = [] :=
  ⟨build_empty_eval,
    c4_acyclic_no_cycles [] 0 "a" emptyFixtureRun acyclic_empty
      build_empty_eval⟩

/-- **C6**: the in-progress set and the visited set are disjoint at
every instant of a build.  The hypotheses are exactly the entry
invariant that holds at every recursive `dfs` call of any build
(established inductively by `dfs_master`); the conclusion gives
disjointness at entry and at exit of the call, together with exact
restoration of the in-progress set. -/
theorem c6_disjoint (resolve : String → List String) (maxDepth : Nat)
    (pkg : String) (depth : Nat) (path : List String) (st st' : DepState)
    (hinv : Inv st path)
    (hrun : dfs resolve maxDepth pkg depth path st = some st') :
    (∀ x, ¬ (x ∈ st.inProgress ∧ x ∈ st.visited)) ∧
    (∀ x, ¬ (x ∈ st'.inProgress ∧ x ∈ st'.visited)) ∧
    st'.inProgress = st.inProgress := by
  obtain ⟨st'', h, hPost⟩ :=
    dfs_master resolve maxDepth (maxDepth + 1 - depth) depth (le_refl _)
      pkg path st hinv
  obtain rfl : st'' = st' := Option.some.inj (h.symm.trans hrun)
  obtain ⟨hIP, hND, hVP, hLog, hLogND⟩ := hinv
  refine ⟨?_, ?_, hPost.ip_eq⟩
  · rintro x ⟨h1, h2⟩
    exact hVP x h2 ((hIP x).mp h1)
  · rintro x ⟨h1, h2⟩
    rw [hPost.ip_eq] at h1
    exact hPost.vis_path x h2 ((hIP x).mp h1)

/-- Witness for C6 at a concrete run (empty fixture, root `a`). -/
theorem c6_disjoint_witness :
    (∀ x, ¬ (x ∈ initState.inProgress ∧ x ∈ initState.visited)) ∧
    (∀ x, ¬ (x ∈ emptyFixtureRun.inProgress ∧
      x ∈ emptyFixtureRun.visited)) ∧
    emptyFixtureRun.inProgress = initState.inProgress :=
  c6_disjoint (get_deps []) 0 "a" 0 [] initState emptyFixtureRun inv_init
    build_empty_eval

/-- **C7** (frame property of edge sets): across any `dfs` call
satisfying the entry invariant, every existing edge set only grows, the
edge set of any already-visited package is completely unchanged, and the
edge set of any suspended (in-progress) package is completely unchanged;
hence a package's edge set is written only during that package's own
expansion call. -/
theorem c7_edge_frame (resolve : String → List String) (maxDepth : Nat)
    (pkg : String) (depth : Nat) (path : List String) (st st' : DepState)
    (hinv : Inv st path)
    (hrun : dfs resolve maxDepth pkg depth path st = some st') :
    (∀ q v, lookupGraph st.graph q = some v →
      ∃ w, lookupGraph st'.graph q = some w ∧ ∀ e, e ∈ v → e ∈ w) ∧
    (∀ q, q ∈ st.visited →
      lookupGraph st'.graph q = lookupGraph st.graph q) ∧
    (∀ q, q ∈ st.inProgress →
      lookupGraph st'.graph q = lookupGraph st.graph q) := by
  obtain ⟨st'', h, hPost⟩ :=
    dfs_master resolve maxDepth (maxDepth + 1 - depth) depth (le_refl _)
      pkg path st hinv
  obtain rfl : st'' = st' := Option.some.inj (h.symm.trans hrun)
  exact ⟨hPost.mono, hPost.froz_vis, hPost.froz_ip⟩

/-- Witness for C7 at a concrete run (empty fixture, root `a`). -/
theorem c7_edge_frame_witness :
    (∀ q v, lookupGraph initState.graph q = some v →
      ∃ w, lookupGraph emptyFixtureRun.graph q = some w ∧
        ∀ e, e ∈ v → e ∈ w) ∧
    (∀ q, q ∈ initState.visited →
      lookupGraph emptyFixtureRun.graph q = lookupGraph initState.graph q) ∧
    (∀ q, q ∈ initState.inProgress →
      lookupGraph emptyFixtureRun.graph q = lookupGraph initState.graph q) :=
  c7_edge_frame (get_deps []) 0 "a" 0 [] initState emptyFixtureRun inv_init
    build_empty_eval

/-- **C2**: for every fixture and root, with `maxDepth = 0`, `build`
expands the root (it is the only package the resolver is invoked for)
and records every direct dependency of the root as an edge (the root's
edge set holds exactly the root's direct dependencies), while each
depth-1 dependency is pruned before its own expansion: the root is the
only graph key, the only visited package, and nothing else is expanded,
and no cycle is recorded. -/
theorem c2_zero_depth (tg : List (String × List String)) (root : String) :
    ∃ st', build (get_deps tg) 0 root = some st' ∧
      (∃ es, lookupGraph st'.graph root = some es ∧
        ∀ d, d ∈ es ↔ d ∈ get_deps tg root) ∧
      st'.graph.map Prod.fst = [root] ∧
      st'.resolveLog = [root] ∧
      st'.visited = [root] ∧
      st'.inProgress = [] ∧
      st'.cycles = [] := by
  have hE : expandState initState root =
      { graph := [(root, [])], visited := [], inProgress := [root],
        cycles := [], resolveLog := [root] } := by
    simp [expandState, initState, setAdd, lookupGraph]
  obtain ⟨g, hrun, hgroot, hgne, hgkeys⟩ :=
    dfsList_pruned (get_deps tg) 0 root 1 ([] ++ [root]) (by omega)
      (get_deps tg root) (expandState initState root) []
      (by rw [hE]; simp [lookupGraph])
  have hbuild := dfs_expand_eq (by omega) (by simp [initState])
    (by simp [initState]) hrun
  rw [hE] at hbuild hgkeys
  refine ⟨_, hbuild, ⟨(get_deps tg root).foldl setAdd [], hgroot, ?_⟩,
    ?_, rfl, ?_, ?_, rfl⟩
  · intro d
    rw [mem_foldl_setAdd]
    simp
  · show g.map Prod.fst = [root]
    rw [hgkeys]
    rfl
  · show setAdd ([] : List String) root = [root]
    simp [setAdd]
  · show ([root].erase root : List String) = []
    exact List.erase_cons_head root []

/-- Evaluation of the diamond fixture at depth bound 1. -/
theorem diamond_depth1_eval :
    build (get_deps diamondTG) 1 "a" = some diamondRun1 := by
  simp [build, dfs, dfsList, initState, get_deps, diamondTG, lookupGraph,
        setAdd, graphAddEdge, indexOfOpt, diamondRun1]

/-- **C1** (corrected): with the diamond fixture and `maxDepth = 1`, the
graph does contain `a ↦ {b, c}`, but `b` and `c` — sitting at depth 1,
within the bound — are themselves expanded and each records its edge to
`d`.  It is `d`, at depth 2, whose expansion is pruned: `d` gets no
graph key, is never visited, and the resolver is never invoked for it. -/
theorem c1_depth_one_diamond :
    build (get_deps diamondTG) 1 "a" = some diamondRun1 ∧
    lookupGraph diamondRun1.graph "a" = some ["b", "c"] ∧
    lookupGraph diamondRun1.graph "b" = some ["d"] ∧
    lookupGraph diamondRun1.graph "c" = some ["d"] ∧
    lookupGraph diamondRun1.graph "d" = none ∧
    diamondRun1.visited = ["b", "c", "a"] ∧
    diamondRun1.resolveLog = ["a", "b", "c"] ∧
    diamondRun1.cycles = [] :=
  ⟨diamond_depth1_eval, by decide, by decide, by decide, by decide, rfl,
    rfl, rfl⟩

/-- Counterexample to **C1** as stated: after the diamond build with
`maxDepth = 1` it is false that neither `b` nor `c` has recorded edges —
`b`'s edge set is `{d}`, neither absent nor empty. -/
theorem c1_counterexample :
    ¬ (∀ st', build (get_deps diamondTG) 1 "a" = some st' →
        lookupGraph st'.graph "a" = some ["b", "c"] ∧
        (lookupGraph st'.graph "b" = none ∨
          lookupGraph st'.graph "b" = some []) ∧
        (lookupGraph st'.graph "c" = none ∨
          lookupGraph st'.graph "c" = some [])) := by
  intro hclaim
  have h := hclaim diamondRun1 diamond_depth1_eval
  rcases h.2.1 with h1 | h1 <;> exact absurd h1 (by decide)

/-- **C3**: on the three-node directed cycle with root `a` and any
`maxDepth ≥ 3`, `build` produces the graph `a:{b}, b:{c}, c:{a}` and
records exactly one cycle, `[a, b, c, a]`, from the single back edge
`c -> a` encountered while `a` is still in progress. -/
theorem c3_one_cycle (m : Nat) (hm : 3 ≤ m) :
    build (get_deps cycleTG) m "a" = some cycleRun ∧
    cycleRun.graph = [("a", ["b"]), ("b", ["c"]), ("c", ["a"])] ∧
    cycleRun.cycles = [["a", "b", "c", "a"]] := by
  have h0 : ¬ 0 > m := by omega
  have h1 : ¬ 1 > m := by omega
  have h2 : ¬ 2 > m := by omega
  have h3 : ¬ 3 > m := by omega
  have hidx : indexOfOpt ["a", "b", "c"] "a" = some 0 := by decide
  -- depth 3: `a` reappears while in progress; the cycle is recorded
  have ea3 : dfs (get_deps cycleTG) m "a" 3 ["a", "b", "c"]
      ⟨[("a", ["b"]), ("b", ["c"]), ("c", ["a"])], [], ["a", "b", "c"], [],
        ["a", "b", "c"]⟩ =
      some ⟨[("a", ["b"]), ("b", ["c"]), ("c", ["a"])], [],
        ["a", "b", "c"], [["a", "b", "c", "a"]], ["a", "b", "c"]⟩ :=
    dfs_cycle_eq h3 (by decide) hidx
  -- the loop of `c`'s expansion
  have hgc : graphAddEdge [("a", ["b"]), ("b", ["c"]), ("c", [])] "c" "a" =
      some [("a", ["b"]), ("b", ["c"]), ("c", ["a"])] := by decide
  have lc : dfsList (get_deps cycleTG) m ["a"] "c" 3 ["a", "b", "c"]
      ⟨[("a", ["b"]), ("b", ["c"]), ("c", [])], [], ["a", "b", "c"], [],
        ["a", "b", "c"]⟩ =
      some ⟨[("a", ["b"]), ("b", ["c"]), ("c", ["a"])], [],
        ["a", "b", "c"], [["a", "b", "c", "a"]], ["a", "b", "c"]⟩ :=
    dfsList_cons_eq hgc ea3 (dfsList_nil _ _ _ _ _ _)
  -- depth 2: expansion of `c`
  have ec2 : dfs (get_deps cycleTG) m "c" 2 ["a", "b"]
      ⟨[("a", ["b"]), ("b", ["c"])], [], ["a", "b"], [], ["a", "b"]⟩ =
      some ⟨[("a", ["b"]), ("b", ["c"]), ("c", ["a"])], ["c"], ["a", "b"],
        [["a", "b", "c", "a"]], ["a", "b", "c"]⟩ :=
    dfs_expand_eq h2 (by decide) (by decide) lc
  -- the loop of `b`'s expansion
  have hgb : graphAddEdge [("a", ["b"]), ("b", [])] "b" "c" =
      some [("a", ["b"]), ("b", ["c"])] := by decide
  have lb : dfsList (get_deps cycleTG) m ["c"] "b" 2 ["a", "b"]
      ⟨[("a", ["b"]), ("b", [])], [], ["a", "b"], [], ["a", "b"]⟩ =
      some ⟨[("a", ["b"]), ("b", ["c"]), ("c", ["a"])], ["c"], ["a", "b"],
        [["a", "b", "c", "a"]], ["a", "b", "c"]⟩ :=
    dfsList_cons_eq hgb ec2 (dfsList_nil _ _ _ _ _ _)
  -- depth 1: expansion of `b`
  have eb1 : dfs (get_deps cycleTG) m "b" 1 ["a"]
      ⟨[("a", ["b"])], [], ["a"], [], ["a"]⟩ =
      some ⟨[("a", ["b"]), ("b", ["c"]), ("c", ["a"])], ["c", "b"], ["a"],
        [["a", "b", "c", "a"]], ["a", "b", "c"]⟩ :=
    dfs_expand_eq h1 (by decide) (by decide) lb
  -- the loop of `a`'s expansion
  have hga : graphAddEdge [("a", [])] "a" "b" = some [("a", ["b"])] := by
    decide
  have la : dfsList (get_deps cycleTG) m ["b"] "a" 1 ["a"]
      ⟨[("a", [])], [], ["a"], [], ["a"]⟩ =
      some ⟨[("a", ["b"]), ("b", ["c"]), ("c", ["a"])], ["c", "b"], ["a"],
        [["a", "b", "c", "a"]], ["a", "b", "c"]⟩ :=
    dfsList_cons_eq hga eb1 (dfsList_nil _ _ _ _ _ _)
  -- depth 0: expansion of the root `a`
  have ea0 : dfs (get_deps cycleTG) m "a" 0 [] initState = some cycleRun :=
    dfs_expand_eq h0 (by decide) (by decide) la
  exact ⟨ea0, rfl, rfl⟩

/-- Witness for C3 at the smallest admissible bound, `maxDepth = 3`. -/
theorem c3_one_cycle_witness :
    build (get_deps cycleTG) 3 "a" = some cycleRun ∧
    cycleRun.graph = [("a", ["b"]), ("b", ["c"]), ("c", ["a"])] ∧
    cycleRun.cycles = [["a", "b", "c", "a"]] :=
  c3_one_cycle 3 (by omega)

/-- The diamond run at any `maxDepth ≥ 3`, executed step by step. -/
theorem diamond_deep_eval (m : Nat) (hm : 3 ≤ m) :
    build (get_deps diamondTG) m "a" = some diamondRun3 := by
  have h0 : ¬ 0 > m := by omega
  have h1 : ¬ 1 > m := by omega
  have h2 : ¬ 2 > m := by omega
  -- depth 2: first (and only) expansion of `d`, with no dependencies
  have ed2 : dfs (get_deps diamondTG) m "d" 2 ["a", "b"]
      ⟨[("a", ["b"]), ("b", ["d"])], [], ["a", "b"], [], ["a", "b"]⟩ =
      some ⟨[("a", ["b"]), ("b", ["d"]), ("d", [])], ["d"], ["a", "b"],
        [], ["a", "b", "d"]⟩ :=
    dfs_expand_eq h2 (by decide) (by decide) (dfsList_nil _ _ _ _ _ _)
  -- the loop of `b`'s expansion
  have hgb : graphAddEdge [("a", ["b"]), ("b", [])] "b" "d" =
      some [("a", ["b"]), ("b", ["d"])] := by decide
  have lb : dfsList (get_deps diamondTG) m ["d"] "b" 2 ["a", "b"]
      ⟨[("a", ["b"]), ("b", [])], [], ["a", "b"], [], ["a", "b"]⟩ =
      some ⟨[("a", ["b"]), ("b", ["d"]), ("d", [])], ["d"], ["a", "b"],
        [], ["a", "b", "d"]⟩ :=
    dfsList_cons_eq hgb ed2 (dfsList_nil _ _ _ _ _ _)
  -- depth 1: expansion of `b`
  have eb1 : dfs (get_deps diamondTG) m "b" 1 ["a"]
      ⟨[("a", ["b"])], [], ["a"], [], ["a"]⟩ =
      some ⟨[("a", ["b"]), ("b", ["d"]), ("d", [])], ["d", "b"], ["a"],
        [], ["a", "b", "d"]⟩ :=
    dfs_expand_eq h1 (by decide) (by decide) lb
  -- depth 2 again: `d` is already visited, memoized return
  have ed2v : dfs (get_deps diamondTG) m "d" 2 ["a", "c"]
      ⟨[("a", ["b", "c"]), ("b", ["d"]), ("d", []), ("c", ["d"])],
        ["d", "b"], ["a", "c"], [], ["a", "b", "d", "c"]⟩ =
      some ⟨[("a", ["b", "c"]), ("b", ["d"]), ("d", []), ("c", ["d"])],
        ["d", "b"], ["a", "c"], [], ["a", "b", "d", "c"]⟩ :=
    dfs_visited (get_deps diamondTG) m "d" 2 ["a", "c"] _ h2 (by decide)
      (by decide)
  -- the loop of `c`'s expansion
  have hgc : graphAddEdge
      [("a", ["b", "c"]), ("b", ["d"]), ("d", []), ("c", [])] "c" "d" =
      some [("a", ["b", "c"]), ("b", ["d"]), ("d", []), ("c", ["d"])] := by
    decide
  have lc : dfsList (get_deps diamondTG) m ["d"] "c" 2 ["a", "c"]
      ⟨[("a", ["b", "c"]), ("b", ["d"]), ("d", []), ("c", [])],
        ["d", "b"], ["a", "c"], [], ["a", "b", "d", "c"]⟩ =
      some ⟨[("a", ["b", "c"]), ("b", ["d"]), ("d", []), ("c", ["d"])],
        ["d", "b"], ["a", "c"], [], ["a", "b", "d", "c"]⟩ :=
    dfsList_cons_eq hgc ed2v (dfsList_nil _ _ _ _ _ _)
  -- depth 1: expansion of `c`
  have ec1 : dfs (get_deps diamondTG) m "c" 1 ["a"]
      ⟨[("a", ["b", "c"]), ("b", ["d"]), ("d", [])], ["d", "b"], ["a"],
        [], ["a", "b", "d"]⟩ =
      some ⟨[("a", ["b", "c"]), ("b", ["d"]), ("d", []), ("c", ["d"])],
        ["d", "b", "c"], ["a"], [], ["a", "b", "d", "c"]⟩ :=
    dfs_expand_eq h1 (by decide) (by decide) lc
  -- the loop of `a`'s expansion: first `b`, then `c`
  have hga1 : graphAddEdge [("a", [])] "a" "b" = some [("a", ["b"])] := by
    decide
  have hga2 : graphAddEdge [("a", ["b"]), ("b", ["d"]), ("d", [])] "a" "c" =
      some [("a", ["b", "c"]), ("b", ["d"]), ("d", [])] := by decide
  have la2 : dfsList (get_deps diamondTG) m ["c"] "a" 1 ["a"]
      ⟨[("a", ["b"]), ("b", ["d"]), ("d", [])], ["d", "b"], ["a"],
        [], ["a", "b", "d"]⟩ =
      some ⟨[("a", ["b", "c"]), ("b", ["d"]), ("d", []), ("c", ["d"])],
        ["d", "b", "c"], ["a"], [], ["a", "b", "d", "c"]⟩ :=
    dfsList_cons_eq hga2 ec1 (dfsList_nil _ _ _ _ _ _)
  have la : dfsList (get_deps diamondTG) m ["b", "c"] "a" 1 ["a"]
      ⟨[("a", [])], [], ["a"], [], ["a"]⟩ =
      some ⟨[("a", ["b", "c"]), ("b", ["d"]), ("d", []), ("c", ["d"])],
        ["d", "b", "c"], ["a"], [], ["a", "b", "d", "c"]⟩ :=
    dfsList_cons_eq hga1 eb1 la2
  -- depth 0: expansion of the root `a`
  have ea0 : dfs (get_deps diamondTG) m "a" 0 [] initState =
      some diamondRun3 :=
    dfs_expand_eq h0 (by decide) (by decide) la
  exact ea0

/-- **C5**: within one build the resolver is invoked at most once per
package name — the ghost invocation log is duplicate-free for every
fixture, bound and root, because a visited package is never re-expanded
however it is later reached.  In particular, on the diamond fixture
with any `maxDepth ≥ 3`, the resolver is invoked for `d` exactly once,
the graph is `a:{b,c}, b:{d}, c:{d}, d:{}` with `d`'s edge set present
but empty, and the cycle list is empty. -/
theorem c5_resolve_once :
    (∀ (tg : List (String × List String)) (maxDepth : Nat) (root : String)
      (st' : DepState), build (get_deps tg) maxDepth root = some st' →
        st'.resolveLog.Nodup) ∧
    (∀ m : Nat, 3 ≤ m →
      build (get_deps diamondTG) m "a" = some diamondRun3 ∧
      diamondRun3.resolveLog.count "d" = 1 ∧
      lookupGraph diamondRun3.graph "d" = some [] ∧
      diamondRun3.cycles = []) := by
  constructor
  · intro tg maxDepth root st' hrun
    obtain ⟨st'', h, hPost⟩ := build_master (get_deps tg) maxDepth root
    obtain rfl : st'' = st' := Option.some.inj (h.symm.trans hrun)
    exact hPost.log_nd
  · intro m hm
    exact ⟨diamond_deep_eval m hm, by decide, by decide, rfl⟩

/-- Witness for C5: the diamond run at `maxDepth = 3`, plus the
duplicate-freeness of that run's resolver log. -/
theorem c5_resolve_once_witness :
    diamondRun3.resolveLog.Nodup ∧
    (build (get_deps diamondTG) 3 "a" = some diamondRun3 ∧
      diamondRun3.resolveLog.count "d" = 1 ∧
      lookupGraph diamondRun3.graph "d" = some [] ∧
      diamondRun3.cycles = []) := by
  have h2 := c5_resolve_once.2 3 (by omega)
  exact ⟨c5_resolve_once.1 diamondTG 3 "a" diamondRun3 h2.1, h2⟩

/-- **C8**: the fixture source behaves as specified.  Blank lines and
lines starting with `#` are ignored; a line splitting as
`name: dep1, dep2, ...` maps the stripped name to the comma-separated
dependencies with surrounding whitespace stripped and empty tokens
dropped; a colon-free line maps the name to zero dependencies; any
other shape (two or more colons) is skipped silently; a sample file
exercising every rule parses to the expected mapping; and `get_deps` on
the resulting mapping returns the listed dependency sequence, or `[]`
for a name not declared in the file. -/
theorem c8_fixture_format :
    (∀ g line, (pyStrip line = "" ∨ pyStartsWithHash (pyStrip line) = true) →
      loadLine g line = g) ∧
    (∀ g line p ds, pyStartsWithHash (pyStrip line) = false →
      pySplit ':' (pyStrip line) = [p, ds] →
      loadLine g line = dictInsert g (pyStrip p)
        (((pySplit ',' (pyStrip ds)).map pyStrip).filter
          (fun d => d != ""))) ∧
    (∀ g line p, pyStartsWithHash (pyStrip line) = false →
      pyStrip line ≠ "" → pySplit ':' (pyStrip line) = [p] →
      loadLine g line = dictInsert g (pyStrip p) []) ∧
    (∀ g line parts, pyStartsWithHash (pyStrip line) = false →
      pySplit ':' (pyStrip line) = parts → 2 < parts.length →
      loadLine g line = g) ∧
    (load_test_repo ["# comment", "", "  a : b , c ,, ", "d", "x:y:z",
        "e:"] = [("a", ["b", "c"]), ("d", []), ("e", [])]) ∧
    (∀ tg p ds, lookupGraph tg p = some ds → get_deps tg p = ds) ∧
    (∀ tg p, lookupGraph tg p = none → get_deps tg p = []) := by
  have hsplit_ne : ∀ s : String, s = "" → pySplit ':' s = [""] := by
    rintro s rfl
    rfl
  refine ⟨?_, ?_, ?_, ?_, by decide, ?_, ?_⟩
  · intro g line h
    simp only [loadLine]
    rw [if_pos h]
  · intro g line p ds hhash hsplit
    have hne : pyStrip line ≠ "" := by
      intro he
      rw [hsplit_ne (pyStrip line) he] at hsplit
      exact absurd (congrArg List.length hsplit) (by simp)
    simp only [loadLine]
    rw [if_neg (by simp [hne, hhash]), hsplit]
  · intro g line p hhash hne hsplit
    simp only [loadLine]
    rw [if_neg (by simp [hne, hhash]), hsplit]
  · intro g line parts hhash hsplit hlen
    have hne : pyStrip line ≠ "" := by
      intro he
      rw [hsplit_ne (pyStrip line) he] at hsplit
      rw [← hsplit] at hlen
      exact absurd hlen (by decide)
    simp only [loadLine]
    rw [if_neg (by simp [hne, hhash]), hsplit]
    rcases parts with _ | ⟨p1, _ | ⟨p2, _ | rest⟩⟩
    · rfl
    · exact absurd hlen (by simp)
    · exact absurd hlen (by simp)
    · rfl
  · intro tg p ds h
    simp [get_deps, h]
  · intro tg p h
    simp [get_deps, h]

/-- Witness for C8, exercising each conditional rule on a concrete
line. -/
theorem c8_fixture_format_witness :
    loadLine [] "# note" = [] ∧
    loadLine [] " a : b " = dictInsert [] "a" ["b"] ∧
    loadLine [] " d " = dictInsert [] "d" [] ∧
    loadLine [] "x:y:z" = [] ∧
    get_deps [("a", ["b"])] "a" = ["b"] ∧
    get_deps [] "zzz" = [] := by
  refine ⟨c8_fixture_format.1 [] "# note" (Or.inr (by decide)), ?_, ?_,
    ?_, ?_, ?_⟩
  · have h := c8_fixture_format.2.1 [] " a : b " "a " " b" (by decide)
      (by decide)
    rw [h]
    decide
  · have h := c8_fixture_format.2.2.1 [] " d " "d" (by decide) (by decide)
      (by decide)
    rw [h]
    decide
  · exact c8_fixture_format.2.2.2.1 [] "x:y:z" ["x", "y", "z"] (by decide)
      (by decide) (by decide)
  · exact c8_fixture_format.2.2.2.2.2.1 [("a", ["b"])] "a" ["b"]
      (by decide)
  · exact c8_fixture_format.2.2.2.2.2.2 [] "zzz" (by decide)

/-- **C9** (corrected): outcome classification of the live resolver.
A 404 on either request and any non-HTTP exception (connection
failure, timeout, parse error) on either request yield `Except.ok []`
— resolution proceeds as if the package had no dependencies — and an
empty versions list yields `Except.ok []`; but an `HTTPError` with any
status other than 404, on either request, is re-raised
(`Except.error`), aborting the caller. -/
theorem c9_live_failure_policy :
    (∀ f, get_dependencies_from_crates_io (Fetch.httpError 404) f =
      Except.ok []) ∧
    (∀ f, get_dependencies_from_crates_io Fetch.fail f = Except.ok []) ∧
    (∀ f, get_dependencies_from_crates_io (Fetch.ok []) f =
      Except.ok []) ∧
    (∀ f v rest, f v = Fetch.fail →
      get_dependencies_from_crates_io (Fetch.ok (v :: rest)) f =
        Except.ok []) ∧
    (∀ f v rest, f v = Fetch.httpError 404 →
      get_dependencies_from_crates_io (Fetch.ok (v :: rest)) f =
        Except.ok []) ∧
    (∀ c, c ≠ 404 → ∀ f,
      get_dependencies_from_crates_io (Fetch.httpError c) f =
        Except.error "HTTP error for package") ∧
    (∀ c, c ≠ 404 → ∀ f v rest, f v = Fetch.httpError c →
      get_dependencies_from_crates_io (Fetch.ok (v :: rest)) f =
        Except.error "HTTP error for package") := by
  refine ⟨fun f => rfl, fun f => rfl, fun f => rfl, ?_, ?_, ?_, ?_⟩
  · intro f v rest hf
    simp [get_dependencies_from_crates_io, hf]
  · intro f v rest hf
    simp [get_dependencies_from_crates_io, hf]
  · intro c hc f
    simp [get_dependencies_from_crates_io, hc]
  · intro c hc f v rest hf
    simp [get_dependencies_from_crates_io, hf, hc]

/-- Counterexample to **C9** as stated: an HTTP 500 — a transient
server-side failure of the versions request, an ordinary resolution
failure — makes the live resolver raise (`Except.error`) to its caller
instead of returning an empty dependency sequence, so the surrounding
build aborts. -/
theorem c9_counterexample :
    get_dependencies_from_crates_io (Fetch.httpError 500)
      (fun _ => Fetch.fail) = Except.error "HTTP error for package" ∧
    ∀ deps, get_dependencies_from_crates_io (Fetch.httpError 500)
      (fun _ => Fetch.fail) ≠ Except.ok deps := by
  refine ⟨rfl, ?_⟩
  intro deps h
  rw [show get_dependencies_from_crates_io (Fetch.httpError 500)
      (fun _ => Fetch.fail) = Except.error "HTTP error for package"
    from rfl] at h
  simp at h

/-- Witness for C9, exercising each failure rule concretely. -/
theorem c9_live_failure_policy_witness :
    get_dependencies_from_crates_io (Fetch.httpError 404)
      (fun _ => Fetch.fail) = Except.ok [] ∧
    get_dependencies_from_crates_io Fetch.fail
      (fun _ => Fetch.fail) = Except.ok [] ∧
    get_dependencies_from_crates_io (Fetch.ok ["1.0.0"])
      (fun _ => Fetch.fail) = Except.ok [] ∧
    get_dependencies_from_crates_io (Fetch.httpError 500)
      (fun _ => Fetch.fail) = Except.error "HTTP error for package" :=
  ⟨c9_live_failure_policy.1 (fun _ => Fetch.fail),
    c9_live_failure_policy.2.1 (fun _ => Fetch.fail),
    c9_live_failure_policy.2.2.2.1 (fun _ => Fetch.fail) "1.0.0" [] rfl,
    c9_live_failure_policy.2.2.2.2.2.1 500 (by decide)
      (fun _ => Fetch.fail)⟩

end DepViz
